import Mathlib

/-!
# SSH wire primitives of `ztools/ssh/packet.go`

A shallow embedding of the `mpint` encoder and the `NameList` codec, and the
properties their description states about them.

Modelling conventions.

* A Go `byte` is a `Fin 256`; a Go `[]byte` and a Go `string` are both
  `List Byte` (a Go string is an arbitrary byte sequence).
* Go `int` values that are lengths of in-memory objects are natural numbers;
  the explicit narrowing conversions `uint32(...)` of the source are kept as
  `% 2 ^ 32`.
* A call that writes through a slice returns the contents of the destination
  after the call, and a returned sub-slice `dest[k:]` is recorded by its
  offset `k` into the destination.
-/

namespace Ssh

/-- A Go `byte`. -/
abbrev Byte := Fin 256

/-- The conversion `byte(x)` of an unsigned integer: truncation to 8 bits. -/
def toByte (x : Nat) : Byte := ⟨x % 256, Nat.mod_lt x (by decide)⟩

/-- The two error values the file produces: `errors.New("Cannot encode empty mpint")`
and the package-level `errShortBuffer`. -/
inductive SshError where
  | errEmptyMpint
  | errShortBuffer
  deriving DecidableEq, Repr

/-! ## Library functions used by the source -/

/-- Worker for `Bytes`: peels base-256 digits off `n`, least significant first,
pushing each in front of `acc`; `fuel` bounds the number of digits. -/
def bytesAux : Nat → Nat → List Byte → List Byte
  | 0, _, acc => acc
  | fuel + 1, n, acc =>
    if n = 0 then acc else bytesAux fuel (n / 256) (toByte n :: acc)

/-- Go `(*big.Int).Bytes`: the absolute value of `x` as a big-endian byte
slice without leading zero bytes (empty for zero). -/
def Bytes (x : Int) : List Byte := bytesAux x.natAbs x.natAbs []

/-- Go builtin `copy(dst, src)`: the contents of `dst` afterwards. It copies
`min(len(dst), len(src))` bytes. -/
def copy (dst src : List Byte) : List Byte :=
  src.take dst.length ++ dst.drop src.length

/-- Go `strings.Join(elems, sep)`. -/
def stringsJoin : List (List Byte) → List Byte → List Byte
  | [], _ => []
  | [a], _ => a
  | a :: b :: rest, sep => a ++ sep ++ stringsJoin (b :: rest) sep

/-- Go `strings.Split(s, sep)` for a one-byte separator: the substrings
between the occurrences of `sep`, in order; one more than there are
occurrences. -/
def stringsSplit : List Byte → Byte → List (List Byte)
  | [], _ => [[]]
  | c :: cs, sep =>
    if c = sep then [] :: stringsSplit cs sep
    else
      match stringsSplit cs sep with
      | [] => [[c]]
      | w :: ws => (c :: w) :: ws

/-- Go `binary.BigEndian.PutUint32(b, v)`: the contents of `b` afterwards
(`b[0] = byte(v >> 24)`, `b[1] = byte(v >> 16)`, `b[2] = byte(v >> 8)`,
`b[3] = byte(v)`). -/
def PutUint32 (b : List Byte) (v : Nat) : List Byte :=
  (((b.set 0 (toByte (v >>> 24))).set 1 (toByte (v >>> 16))).set 2 (toByte (v >>> 8))).set 3
    (toByte v)

/-- Go `binary.BigEndian.Uint32(b)`:
`uint32(b[3]) | uint32(b[2])<<8 | uint32(b[1])<<16 | uint32(b[0])<<24`.
The source calls it only on slices of at least four bytes. -/
def Uint32 (b : List Byte) : Nat :=
  (b.getD 3 0).val + (b.getD 2 0).val * 2 ^ 8 + (b.getD 1 0).val * 2 ^ 16
    + (b.getD 0 0).val * 2 ^ 24

/-- The ASCII comma, the separator of a name-list. -/
def comma : Byte := 44

/-! ## `mpint` -/

/-- The type `mpint` of the source: a wrapper of a `big.Int`. -/
structure mpint where
  val : Int
  deriving DecidableEq, Repr

/-- The method `(*mpint).Marshal` of the source: the returned bytes and error. -/
def mpint.Marshal (mp : mpint) : List Byte × Option SshError :=
  let b := Bytes mp.val
  if b.length = 0 then
    ([], some SshError.errEmptyMpint)
  else if b.getD 0 0 < 0x80 then
    (b, none)
  else
    let out := List.replicate (b.length + 1) (0 : Byte)
    let out := out.set 0 0x00
    let out := out.take 1 ++ copy (out.drop 1) b
    (out, none)

/-! ## `NameList` -/

/-- The type `NameList` of the source: `[]string`. -/
abbrev NameList := List (List Byte)

/-- The method `(*NameList).MarshaledLength` of the source. -/
def NameList.MarshaledLength (n : NameList) : Nat :=
  let length := 4
  let nameCount := n.length
  if nameCount ≤ 0 then
    length
  else
    let length := length + (nameCount - 1)
    n.foldl (fun length val => length + val.length) length

/-- What a call of `MarshalInto` leaves behind: the contents of `dest` after
the call, the offset `off` at which the returned slice `dest[off:]` starts, and
the returned error. -/
structure MarshalIntoResult where
  mem : List Byte
  off : Nat
  err : Option SshError
  deriving DecidableEq, Repr

/-- The slice a call of `MarshalInto` returns. -/
def MarshalIntoResult.ret (r : MarshalIntoResult) : List Byte := r.mem.drop r.off

/-- The method `(*NameList).MarshalInto` of the source. -/
def NameList.MarshalInto (n : NameList) (dest : List Byte) : MarshalIntoResult :=
  let b := dest
  if b.length < 4 then
    ⟨dest, 0, some SshError.errShortBuffer⟩
  else
    let b := b.drop 4
    let joined := stringsJoin n [comma]
    if b.length < joined.length then
      ⟨dest, 0, some SshError.errShortBuffer⟩
    else
      let length := joined.length
      let dest := PutUint32 dest (length % 2 ^ 32)
      let dest := dest.take 4 ++ copy b joined
      ⟨dest, 4 + length, none⟩

/-- What a call of `Unmarshal` leaves behind: the receiver after the call, the
returned slice and the returned flag. -/
structure UnmarshalResult where
  n : NameList
  rest : List Byte
  ok : Bool
  deriving DecidableEq, Repr

/-- The method `(*NameList).Unmarshal` of the source; `n` is the receiver
before the call. -/
def NameList.Unmarshal (n : NameList) (raw : List Byte) : UnmarshalResult :=
  let b := raw
  if b.length < 4 then
    ⟨n, raw, false⟩
  else
    let length := Uint32 b
    let b := b.drop 4
    if b.length % 2 ^ 32 < length then
      ⟨n, raw, false⟩
    else
      let s := b.take length
      let n := if s.length = 0 then [] else stringsSplit s comma
      let b := b.drop length
      ⟨n, b, true⟩

/-! ## Readings of a byte sequence, used to state the properties -/

/-- The non-negative integer a byte sequence denotes, big-endian. -/
def beValue (bs : List Byte) : Nat := bs.foldl (fun acc b => acc * 256 + b.val) 0

/-- The integer a byte sequence denotes as a big-endian two's-complement
number (RFC 4251 section 5): the most significant bit of the first byte is the sign. -/
def twosComplement (bs : List Byte) : Int :=
  if 0x80 ≤ (bs.getD 0 0).val then (beValue bs : Int) - 256 ^ bs.length else (beValue bs : Int)

/-- The four bytes `PutUint32` writes for `v`, most significant first. -/
def be32 (v : Nat) : List Byte :=
  [toByte (v >>> 24), toByte (v >>> 16), toByte (v >>> 8), toByte v]

/-! ## Packet length -/

/-- The conversion `int(x)` of an unsigned integer, for an `int` of 64 bits
(two's complement). -/
def toInt (x : Nat) : Int :=
  if x % 2 ^ 64 < 2 ^ 63 then ((x % 2 ^ 64 : Nat) : Int) else ((x % 2 ^ 64 : Nat) : Int) - 2 ^ 64

/-- The function `expectedLength` of the source. Its arguments are `uint32`
values, so is `totalLength`: each addition is taken modulo `2 ^ 32`. -/
def expectedLength (packetLength macLength : Nat) : Int :=
  let totalLength := ((packetLength + macLength) % 2 ^ 32 + 4) % 2 ^ 32
  toInt totalLength

/-! ## Lemmas on the library functions -/

theorem foldl_be (bs : List Byte) (a : Nat) :
    bs.foldl (fun acc b => acc * 256 + b.val) a = a * 256 ^ bs.length + beValue bs := by
  induction bs generalizing a with
  | nil => simp [beValue]
  | cons c cs ih =>
    have h1 := ih (a * 256 + c.val)
    have h2 := ih (0 * 256 + c.val)
    simp only [beValue, List.foldl_cons, List.length_cons] at *
    rw [h1, h2]
    ring

theorem beValue_cons (c : Byte) (cs : List Byte) :
    beValue (c :: cs) = c.val * 256 ^ cs.length + beValue cs := by
  have h := foldl_be cs (0 * 256 + c.val)
  simp only [beValue, List.foldl_cons] at *
  rw [h]
  ring

theorem beValue_lt (bs : List Byte) : beValue bs < 256 ^ bs.length := by
  induction bs with
  | nil => simp [beValue]
  | cons c cs ih =>
    rw [beValue_cons, List.length_cons, pow_succ]
    have hc : c.val < 256 := c.isLt
    nlinarith

theorem toByte_val (x : Nat) : (toByte x).val = x % 256 := rfl

theorem bytesAux_value (fuel : Nat) :
    ∀ (n : Nat) (acc : List Byte), n ≤ fuel →
      beValue (bytesAux fuel n acc) = n * 256 ^ acc.length + beValue acc := by
  induction fuel with
  | zero =>
    intro n acc h
    have : n = 0 := by omega
    subst this
    simp [bytesAux]
  | succ f ih =>
    intro n acc h
    unfold bytesAux
    by_cases hn : n = 0
    · simp [hn]
    · rw [if_neg hn, ih (n / 256) _ (by omega), beValue_cons, toByte_val, List.length_cons,
        pow_succ]
      have h := Nat.div_add_mod n 256
      conv_rhs => rw [← h]
      ring

theorem bytesAux_head (fuel : Nat) :
    ∀ (n : Nat) (acc : List Byte), n ≤ fuel → n ≠ 0 →
      ∃ b rest, bytesAux fuel n acc = b :: rest ∧ b.val ≠ 0 := by
  induction fuel with
  | zero => intro n acc h hn; omega
  | succ f ih =>
    intro n acc h hn
    unfold bytesAux
    rw [if_neg hn]
    by_cases hq : n / 256 = 0
    · refine ⟨toByte n, acc, ?_, ?_⟩
      · rw [hq]
        cases f <;> simp [bytesAux]
      · rw [toByte_val]
        omega
    · exact ih (n / 256) _ (by omega) hq

theorem Bytes_value (v : Int) : beValue (Bytes v) = v.natAbs :=
  by simpa [Bytes, beValue] using bytesAux_value v.natAbs v.natAbs [] le_rfl

theorem Bytes_head (v : Int) (hv : v ≠ 0) :
    ∃ b rest, Bytes v = b :: rest ∧ b.val ≠ 0 :=
  bytesAux_head v.natAbs v.natAbs [] le_rfl (by simpa using hv)

theorem Bytes_zero : Bytes 0 = [] := rfl

theorem Bytes_eq_nil_iff (v : Int) : Bytes v = [] ↔ v = 0 := by
  constructor
  · intro h
    by_contra hv
    obtain ⟨b, rest, hb, _⟩ := Bytes_head v hv
    rw [h] at hb
    cases hb
  · rintro rfl
    rfl

theorem copy_exact (dst src : List Byte) (h : dst.length = src.length) : copy dst src = src := by
  simp [copy, h]

/-- The two outcomes of `Marshal` on a value with non-empty magnitude bytes. -/
theorem Marshal_of_Bytes (v : Int) (b0 : Byte) (rest : List Byte) (h : Bytes v = b0 :: rest) :
    mpint.Marshal ⟨v⟩ =
      if b0 < 0x80 then (b0 :: rest, none) else ((0 : Byte) :: b0 :: rest, none) := by
  simp only [mpint.Marshal, h]
  by_cases hb : b0 < 0x80
  · simp [hb]
  · simp [hb, copy, List.replicate_succ]

/-- A byte sequence is strictly below `(first byte + 1) * 256 ^ (length - 1)`. -/
theorem beValue_cons_lt (c : Byte) (cs : List Byte) :
    beValue (c :: cs) < (c.val + 1) * 256 ^ cs.length := by
  rw [beValue_cons]
  have := beValue_lt cs
  nlinarith

theorem beValue_cons_ge (c : Byte) (cs : List Byte) :
    c.val * 256 ^ cs.length ≤ beValue (c :: cs) := by
  rw [beValue_cons]
  omega

/-- No sequence with a clear high bit that is shorter than the output of
`Marshal` has the value of the magnitude bytes. -/
theorem shorter_clear_ne (b0 : Byte) (rest bs : List Byte) (hb0 : b0.val ≠ 0)
    (hclear : ∀ c ∈ bs.head?, c.val < 0x80)
    (hlen : bs.length < (if b0 < 0x80 then b0 :: rest else (0 : Byte) :: b0 :: rest).length) :
    beValue bs ≠ beValue (b0 :: rest) := by
  have hge := beValue_cons_ge b0 rest
  by_cases hlt : bs.length < (b0 :: rest).length
  · have h1 := beValue_lt bs
    have h2 : 256 ^ bs.length ≤ 256 ^ rest.length :=
      Nat.pow_le_pow_right (by decide) (by simpa [Nat.lt_succ_iff] using hlt)
    have h3 : 1 * 256 ^ rest.length ≤ b0.val * 256 ^ rest.length :=
      Nat.mul_le_mul_right _ (by omega)
    omega
  · have hb : ¬ b0 < 0x80 := by
      intro hb
      rw [if_pos hb] at hlen
      exact hlt hlen
    rw [if_neg hb] at hlen
    have hb1 : 0x80 ≤ b0.val := by
      have := Fin.lt_def.not.mp hb
      simpa using this
    cases bs with
    | nil => simp at hlt
    | cons c cs =>
      have hc : c.val < 0x80 := hclear c (by simp)
      have hcs : cs.length = rest.length := by
        simp only [List.length_cons] at hlen hlt
        omega
      have h1 := beValue_cons_lt c cs
      rw [hcs] at h1
      have h2 : (c.val + 1) * 256 ^ rest.length ≤ b0.val * 256 ^ rest.length :=
        Nat.mul_le_mul_right _ (by omega)
      omega

theorem PutUint32_eq (b : List Byte) (v : Nat) (h : 4 ≤ b.length) :
    PutUint32 b v = be32 v ++ b.drop 4 := by
  match b, h with
  | _ :: _ :: _ :: _ :: _, _ => simp [PutUint32, be32]

theorem Uint32_be32 (v : Nat) (rest : List Byte) (h : v < 2 ^ 32) :
    Uint32 (be32 v ++ rest) = v := by
  simp only [Uint32, be32, List.cons_append, List.nil_append, List.getD_cons_zero,
    List.getD_cons_succ, toByte_val, Nat.shiftRight_eq_div_pow]
  omega

theorem Uint32_be32_mod (v : Nat) (rest : List Byte) :
    Uint32 (be32 v ++ rest) = v % 2 ^ 32 := by
  simp only [Uint32, be32, List.cons_append, List.nil_append, List.getD_cons_zero,
    List.getD_cons_succ, toByte_val, Nat.shiftRight_eq_div_pow]
  omega

theorem be32_length (v : Nat) : (be32 v).length = 4 := rfl

/-- The successful branch of `MarshalInto`, in closed form. -/
theorem MarshalInto_ok (n : NameList) (dest : List Byte)
    (h : 4 + (stringsJoin n [comma]).length ≤ dest.length) :
    NameList.MarshalInto n dest =
      ⟨be32 ((stringsJoin n [comma]).length % 2 ^ 32) ++ (stringsJoin n [comma]
          ++ dest.drop (4 + (stringsJoin n [comma]).length)),
        4 + (stringsJoin n [comma]).length, none⟩ := by
  have h4 : ¬ dest.length < 4 := by omega
  have hj : ¬ (dest.drop 4).length < (stringsJoin n [comma]).length := by
    rw [List.length_drop]; omega
  have hle : (stringsJoin n [comma]).length ≤ dest.length - 4 := by omega
  simp only [NameList.MarshalInto, if_neg h4, if_neg hj]
  rw [PutUint32_eq dest _ (by omega)]
  simp [copy, be32, List.take_of_length_le hle, Nat.add_comm]

/-- The failing branches of `MarshalInto`. -/
theorem MarshalInto_short (n : NameList) (dest : List Byte)
    (h : dest.length < 4 + (stringsJoin n [comma]).length) :
    NameList.MarshalInto n dest = ⟨dest, 0, some SshError.errShortBuffer⟩ := by
  by_cases h4 : dest.length < 4
  · simp [NameList.MarshalInto, h4]
  · have hj : (dest.drop 4).length < (stringsJoin n [comma]).length := by
      rw [List.length_drop]; omega
    simp only [NameList.MarshalInto, if_neg h4, if_pos hj]

theorem foldl_add_length (n : NameList) (a : Nat) :
    n.foldl (fun length val => length + val.length) a = a + (n.map List.length).sum := by
  induction n generalizing a with
  | nil => simp
  | cons x xs ih => simp [ih, Nat.add_assoc]

theorem stringsJoin_length (a : List Byte) (n : NameList) :
    (stringsJoin (a :: n) [comma]).length = ((a :: n).map List.length).sum + n.length := by
  induction n generalizing a with
  | nil => simp [stringsJoin]
  | cons b rest ih =>
    simp only [stringsJoin, List.length_append, ih b, List.map_cons, List.sum_cons,
      List.length_cons, List.length_nil]
    omega

theorem MarshaledLength_eq_join (n : NameList) :
    NameList.MarshaledLength n = 4 + (stringsJoin n [comma]).length := by
  cases n with
  | nil => simp [NameList.MarshaledLength, stringsJoin]
  | cons a rest =>
    rw [stringsJoin_length]
    simp only [NameList.MarshaledLength, List.length_cons, foldl_add_length]
    simp
    omega

theorem stringsSplit_no_sep (a : List Byte) (sep : Byte) (h : sep ∉ a) :
    stringsSplit a sep = [a] := by
  induction a with
  | nil => rfl
  | cons c cs ih =>
    have hc : c ≠ sep := fun e => h (by simp [e])
    have hcs : sep ∉ cs := fun e => h (by simp [e])
    simp [stringsSplit, hc, ih hcs]

theorem stringsSplit_append (a s : List Byte) (sep : Byte) (h : sep ∉ a) :
    stringsSplit (a ++ sep :: s) sep = a :: stringsSplit s sep := by
  induction a with
  | nil => simp [stringsSplit]
  | cons c cs ih =>
    have hc : c ≠ sep := fun e => h (by simp [e])
    have hcs : sep ∉ cs := fun e => h (by simp [e])
    simp [stringsSplit, hc, ih hcs]

/-- Splitting the join of comma-free names gives the names back. -/
theorem stringsSplit_stringsJoin (a : List Byte) (n : NameList)
    (h : ∀ e ∈ a :: n, comma ∉ e) :
    stringsSplit (stringsJoin (a :: n) [comma]) comma = a :: n := by
  induction n generalizing a with
  | nil => exact stringsSplit_no_sep a comma (h a (by simp))
  | cons b rest ih =>
    have hb : ∀ e ∈ b :: rest, comma ∉ e := fun e he => h e (List.mem_cons_of_mem _ he)
    simp only [stringsJoin, List.append_assoc, List.singleton_append]
    rw [stringsSplit_append _ _ _ (h a (by simp)), ih b hb]

/-- The successful branch of `Unmarshal` on a well-formed wire image. -/
theorem Unmarshal_wire (n0 : NameList) (body extra : List Byte)
    (h : body.length + extra.length < 2 ^ 32) :
    NameList.Unmarshal n0 (be32 body.length ++ (body ++ extra)) =
      ⟨if body.length = 0 then [] else stringsSplit body comma, extra, true⟩ := by
  have hb : body.length < 2 ^ 32 := by omega
  have h4 : ¬ (be32 body.length ++ (body ++ extra)).length < 4 := by
    simp [be32_length]
  simp only [NameList.Unmarshal, if_neg h4, Uint32_be32 _ _ hb]
  have hd : List.drop 4 (be32 body.length ++ (body ++ extra)) = body ++ extra := by
    simp [be32]
  rw [hd]
  have hlt : ¬ (body ++ extra).length % 2 ^ 32 < body.length := by
    rw [List.length_append, Nat.mod_eq_of_lt h]; omega
  rw [if_neg hlt]
  simp

theorem beValue_zero_cons (bs : List Byte) : beValue ((0 : Byte) :: bs) = beValue bs := by
  rw [beValue_cons]
  simp

/-- What `Marshal` returns on a non-zero value, in terms of the magnitude bytes. -/
theorem Marshal_nonzero (v : Int) (hv : v ≠ 0) :
    ∃ b0 rest, Bytes v = b0 :: rest ∧ b0.val ≠ 0 ∧ beValue (b0 :: rest) = v.natAbs ∧
      mpint.Marshal ⟨v⟩ =
        ((if b0 < 0x80 then b0 :: rest else (0 : Byte) :: b0 :: rest), none) := by
  obtain ⟨b0, rest, hb, hb0⟩ := Bytes_head v hv
  refine ⟨b0, rest, hb, hb0, ?_, ?_⟩
  · rw [← hb, Bytes_value]
  · rw [Marshal_of_Bytes v b0 rest hb]
    split <;> rfl

theorem byte_lt_iff (b : Byte) : b < 0x80 ↔ b.val < 0x80 := by
  rw [Fin.lt_def]
  rfl

/-- `MarshalInto` succeeds exactly when the buffer holds the four length bytes
and the joined names. -/
theorem MarshalInto_err_none_iff (n : NameList) (dest : List Byte) :
    (NameList.MarshalInto n dest).err = none ↔
      4 + (stringsJoin n [comma]).length ≤ dest.length := by
  constructor
  · intro h
    by_contra hs
    rw [MarshalInto_short n dest (by omega)] at h
    cases h
  · intro h
    rw [MarshalInto_ok n dest h]

theorem wire_drop (v : Nat) (body extra : List Byte) :
    List.drop (4 + body.length) (be32 v ++ (body ++ extra)) = extra := by
  have h4 : List.drop 4 (be32 v ++ (body ++ extra)) = body ++ extra := by
    simp [be32]
  rw [← List.drop_drop, h4, List.drop_left]

theorem be32_mod (v : Nat) : be32 (v % 2 ^ 32) = be32 v := by
  simp only [be32, toByte, Nat.shiftRight_eq_div_pow, List.cons.injEq, Fin.mk.injEq, and_true]
  refine ⟨?_, ?_, ?_, ?_⟩ <;> omega

theorem beValue_be32 (v : Nat) : beValue (be32 v) = v % 2 ^ 32 := by
  simp only [beValue, be32, List.foldl_cons, List.foldl_nil, toByte_val,
    Nat.shiftRight_eq_div_pow]
  omega

/-! ## The claims -/

/-- C1, as stated, fails: the one-entry list holding the empty name has no comma
in any entry, `MarshalInto` succeeds on a buffer of `MarshaledLength` (4) bytes
and writes `[0,0,0,0]`, and `Unmarshal` of these bytes succeeds with the empty
list, which is not the list that was written. -/
theorem C1_single_empty_name_not_restored :
    (∀ e ∈ ([[]] : NameList), comma ∉ e) ∧
    ([9, 9, 9, 9] : List Byte).length = NameList.MarshaledLength [[]] ∧
    NameList.MarshalInto [[]] [9, 9, 9, 9] = ⟨[0, 0, 0, 0], 4, none⟩ ∧
    NameList.Unmarshal [[]] (NameList.MarshalInto [[]] [9, 9, 9, 9]).mem = ⟨[], [], true⟩ ∧
    (NameList.Unmarshal [[]] (NameList.MarshalInto [[]] [9, 9, 9, 9]).mem).n ≠ [[]] := by
  decide

/-- C1 (amended): for every NameList `L` other than the one-entry list holding
the empty name, with no comma in any entry and a wire form shorter than
`2^32 + 4` bytes, `MarshalInto` on a buffer of `MarshaledLength L` bytes
succeeds, fills the whole buffer, and `Unmarshal` of the written bytes, whatever
the receiver held before, succeeds with exactly `L` and an empty remainder. -/
theorem C1_roundtrip (L : NameList) (dest : List Byte) (n0 : NameList)
    (hcomma : ∀ e ∈ L, comma ∉ e) (hne : L ≠ [[]])
    (h32 : NameList.MarshaledLength L < 2 ^ 32 + 4)
    (hlen : dest.length = NameList.MarshaledLength L) :
    (NameList.MarshalInto L dest).err = none ∧
    (NameList.MarshalInto L dest).mem.take (NameList.MarshalInto L dest).off
      = (NameList.MarshalInto L dest).mem ∧
    NameList.Unmarshal n0 (NameList.MarshalInto L dest).mem = ⟨L, [], true⟩ := by
  rw [MarshaledLength_eq_join] at h32 hlen
  have hj : (stringsJoin L [comma]).length < 2 ^ 32 := by omega
  rw [MarshalInto_ok L dest (by omega)]
  have hdrop : dest.drop (4 + (stringsJoin L [comma]).length) = [] :=
    List.drop_of_length_le (by omega)
  rw [hdrop, Nat.mod_eq_of_lt hj]
  refine ⟨rfl, ?_, ?_⟩
  · apply List.take_of_length_le
    simp [be32_length]
  · rw [Unmarshal_wire n0 _ [] (by simpa using hj)]
    congr 1
    cases L with
    | nil => simp [stringsJoin]
    | cons a rest =>
      have hpos : (stringsJoin (a :: rest) [comma]).length ≠ 0 := by
        cases rest with
        | nil =>
          have ha : a ≠ [] := fun e => hne (by rw [e])
          simpa [stringsJoin] using ha
        | cons b rest => simp [stringsJoin]
      rw [if_neg hpos, stringsSplit_stringsJoin a rest hcomma]

/-- C1 witness: the list `["a", "bc"]` and an eight-byte buffer. -/
theorem C1_roundtrip_witness :
    (NameList.MarshalInto [[97], [98, 99]] (List.replicate 8 0)).err = none ∧
    (NameList.MarshalInto [[97], [98, 99]] (List.replicate 8 0)).mem.take
        (NameList.MarshalInto [[97], [98, 99]] (List.replicate 8 0)).off
      = (NameList.MarshalInto [[97], [98, 99]] (List.replicate 8 0)).mem ∧
    NameList.Unmarshal [] (NameList.MarshalInto [[97], [98, 99]] (List.replicate 8 0)).mem
      = ⟨[[97], [98, 99]], [], true⟩ :=
  C1_roundtrip [[97], [98, 99]] (List.replicate 8 0) [] (by decide) (by decide) (by decide)
    (by decide)

/-- C2, as stated, fails at the non-negative value 0: `Marshal` returns the error
and no bytes, so its output has no first byte. -/
theorem C2_zero_has_no_first_byte :
    (0 : Int) ≥ 0 ∧ mpint.Marshal ⟨0⟩ = ([], some SshError.errEmptyMpint) ∧
    ¬ ∃ b0 rest, (mpint.Marshal ⟨0⟩).1 = b0 :: rest ∧ b0.val < 0x80 := by
  refine ⟨by decide, by decide, ?_⟩
  rintro ⟨b0, rest, h, _⟩
  have h0 : (mpint.Marshal ⟨0⟩).1 = [] := by decide
  rw [h0] at h
  cases h

/-- C2 (amended): for every positive integer `v`, `Marshal` succeeds with a
non-empty byte sequence whose first byte is below `0x80`, and whose big-endian
value is exactly `v`. -/
theorem C2_mpint_roundtrip (v : Int) (hv : 0 < v) :
    ∃ b0 rest, mpint.Marshal ⟨v⟩ = (b0 :: rest, none) ∧ b0.val < 0x80 ∧
      (beValue (b0 :: rest) : Int) = v := by
  obtain ⟨b0, rest, _, _, hval, hM⟩ := Marshal_nonzero v (ne_of_gt hv)
  have habs : (v.natAbs : Int) = v := Int.natAbs_of_nonneg (le_of_lt hv)
  by_cases hb : b0 < 0x80
  · rw [if_pos hb] at hM
    exact ⟨b0, rest, hM, (byte_lt_iff b0).mp hb, by rw [hval, habs]⟩
  · rw [if_neg hb] at hM
    exact ⟨0, b0 :: rest, hM, by decide, by rw [beValue_zero_cons, hval, habs]⟩

/-- C2 witness: the value 255, encoded as `[0x00, 0xff]`. -/
theorem C2_mpint_roundtrip_witness :
    (0 : Int) < 255 ∧ ∃ b0 rest, mpint.Marshal ⟨255⟩ = (b0 :: rest, none) ∧ b0.val < 0x80 ∧
      (beValue (b0 :: rest) : Int) = 255 :=
  ⟨by decide, C2_mpint_roundtrip 255 (by decide)⟩

/-- C3, as stated, fails at -1: `Marshal` succeeds on it with `[0x01]`, the
bytes of the magnitude, which read as two's complement is 1, while the
two's-complement encoding of -1 is `[0xff]`. -/
theorem C3_minus_one_encoded_as_magnitude :
    mpint.Marshal ⟨-1⟩ = ([0x01], none) ∧
    twosComplement (mpint.Marshal ⟨-1⟩).1 = 1 ∧
    twosComplement (mpint.Marshal ⟨-1⟩).1 ≠ -1 ∧
    twosComplement [0xff] = -1 ∧
    (mpint.Marshal ⟨-1⟩).1 ≠ [0xff] := by
  decide

/-- C3 (amended): for every positive integer `v`, `Marshal` succeeds and its
output is the minimal-length big-endian two's-complement representation of `v`:
read as two's complement it yields `v`, and no byte sequence that reads as `v`
is shorter. -/
theorem C3_twos_complement_positive (v : Int) (hv : 0 < v) :
    (mpint.Marshal ⟨v⟩).2 = none ∧
    twosComplement (mpint.Marshal ⟨v⟩).1 = v ∧
    ∀ bs : List Byte, twosComplement bs = v → (mpint.Marshal ⟨v⟩).1.length ≤ bs.length := by
  obtain ⟨b0, rest, _, hb0, hval, hM⟩ := Marshal_nonzero v (ne_of_gt hv)
  have habs : (v.natAbs : Int) = v := Int.natAbs_of_nonneg (le_of_lt hv)
  rw [hM]
  refine ⟨rfl, ?_, ?_⟩
  · by_cases hb : b0 < 0x80
    · have hb1 : ¬ 0x80 ≤ b0.val := by
        have := (byte_lt_iff b0).mp hb
        omega
      simp only [if_pos hb, twosComplement, List.getD_cons_zero, if_neg hb1]
      rw [hval, habs]
    · simp only [if_neg hb, twosComplement, List.getD_cons_zero]
      rw [if_neg (by decide), beValue_zero_cons, hval, habs]
  · intro bs hbs
    by_contra hlen
    have hlen1 := Nat.lt_of_not_le hlen
    simp only [twosComplement] at hbs
    by_cases hs : 0x80 ≤ (bs.getD 0 0).val
    · rw [if_pos hs] at hbs
      have h1 := beValue_lt bs
      have h2 : ((beValue bs : Nat) : Int) < (256 : Int) ^ bs.length := by exact_mod_cast h1
      omega
    · rw [if_neg hs] at hbs
      have hclear : ∀ c ∈ bs.head?, c.val < 0x80 := by
        intro c hc
        cases bs with
        | nil => simp at hc
        | cons d ds =>
          simp only [List.head?_cons, Option.mem_def, Option.some.injEq] at hc
          subst hc
          simpa using hs
      have hne := shorter_clear_ne b0 rest bs hb0 hclear (by
        by_cases hb : b0 < 0x80
        · simpa [if_pos hb] using hlen1
        · simpa [if_neg hb] using hlen1)
      apply hne
      rw [hval]
      have : ((beValue bs : Nat) : Int) = (v.natAbs : Int) := by rw [hbs, habs]
      exact_mod_cast this

/-- C3 witness: the value 128, whose encoding `[0x00, 0x80]` has two bytes. -/
theorem C3_twos_complement_positive_witness :
    (0 : Int) < 128 ∧
    (mpint.Marshal ⟨128⟩).2 = none ∧
    twosComplement (mpint.Marshal ⟨128⟩).1 = 128 ∧
    ∀ bs : List Byte, twosComplement bs = 128 → (mpint.Marshal ⟨128⟩).1.length ≤ bs.length :=
  ⟨by decide, C3_twos_complement_positive 128 (by decide)⟩

/-- C4: `Marshal` fails on zero and only on zero. On 0, whose magnitude has no
bytes, it returns no bytes and the empty-value error; on every value whose
magnitude has at least one byte it returns a non-empty byte sequence and no
error; and an error is returned exactly when the value is 0. -/
theorem C4_fails_only_on_zero (v : Int) :
    (v = 0 → Bytes v = [] ∧ mpint.Marshal ⟨v⟩ = ([], some SshError.errEmptyMpint)) ∧
    (Bytes v ≠ [] → (mpint.Marshal ⟨v⟩).2 = none ∧ (mpint.Marshal ⟨v⟩).1 ≠ []) ∧
    ((mpint.Marshal ⟨v⟩).2 ≠ none ↔ v = 0) := by
  have hpos : v ≠ 0 → (mpint.Marshal ⟨v⟩).2 = none ∧ (mpint.Marshal ⟨v⟩).1 ≠ [] := by
    intro hv
    obtain ⟨b0, rest, _, _, _, hM⟩ := Marshal_nonzero v hv
    rw [hM]
    refine ⟨rfl, ?_⟩
    split <;> simp
  refine ⟨?_, ?_, ?_⟩
  · rintro rfl
    exact ⟨rfl, rfl⟩
  · intro hb
    exact hpos (fun hv => hb ((Bytes_eq_nil_iff v).mpr hv))
  · constructor
    · intro herr
      by_contra hv
      exact herr (hpos hv).1
    · rintro rfl
      decide

/-- C4 witness: zero fails, and 7 (one magnitude byte) succeeds. -/
theorem C4_fails_only_on_zero_witness :
    (Bytes 0 = [] ∧ mpint.Marshal ⟨0⟩ = ([], some SshError.errEmptyMpint)) ∧
    Bytes 7 ≠ [] ∧ (mpint.Marshal ⟨7⟩).2 = none ∧ (mpint.Marshal ⟨7⟩).1 ≠ [] :=
  ⟨(C4_fails_only_on_zero 0).1 rfl, by decide, (C4_fails_only_on_zero 7).2.1 (by decide)⟩

/-- C5: when the magnitude bytes `b` of the value are non-empty, `Marshal`
returns `b` unchanged if `b[0] < 0x80`, and `0x00` followed by `b`, of length
`len(b) + 1`, if `b[0] >= 0x80`; 128 is encoded as `[0x00, 0x80]`, of length 2. -/
theorem C5_leading_zero_rule (v : Int) (b0 : Byte) (rest : List Byte)
    (h : Bytes v = b0 :: rest) :
    (b0.val < 0x80 → mpint.Marshal ⟨v⟩ = (b0 :: rest, none)) ∧
    (0x80 ≤ b0.val → mpint.Marshal ⟨v⟩ = ((0 : Byte) :: b0 :: rest, none) ∧
      (mpint.Marshal ⟨v⟩).1.length = (b0 :: rest).length + 1) ∧
    Bytes 128 = [0x80] ∧ mpint.Marshal ⟨128⟩ = ([0x00, 0x80], none) ∧
    (mpint.Marshal ⟨128⟩).1.length = 2 ∧ (mpint.Marshal ⟨128⟩).1 ≠ [0x80] := by
  rw [Marshal_of_Bytes v b0 rest h]
  refine ⟨?_, ?_, by decide, by decide, by decide, by decide⟩
  · intro hb
    rw [if_pos ((byte_lt_iff b0).mpr hb)]
  · intro hb
    have hn : ¬ b0 < 0x80 := by
      rw [byte_lt_iff]
      omega
    rw [if_neg hn]
    exact ⟨rfl, rfl⟩

/-- C5 witness: 300 has magnitude bytes `[0x01, 0x2c]`, returned unchanged. -/
theorem C5_leading_zero_rule_witness :
    Bytes 300 = [0x01, 0x2c] ∧ mpint.Marshal ⟨300⟩ = ([0x01, 0x2c], none) :=
  ⟨by decide, (C5_leading_zero_rule 300 0x01 [0x2c] (by decide)).1 (by decide)⟩

/-- C6: for every non-negative value on which `Marshal` succeeds, the output
denotes the value, its first byte has a clear high bit, a first byte `0x00` is
followed by a second byte that is at least `0x80`, and no strictly shorter byte
sequence with a clear high bit has the same big-endian value. -/
theorem C6_minimal (v : Int) (out : List Byte) (hv : 0 ≤ v)
    (h : mpint.Marshal ⟨v⟩ = (out, none)) :
    (beValue out : Int) = v ∧
    (∀ b ∈ out.head?, b.val < 0x80) ∧
    (out.head? = some 0 → 2 ≤ out.length ∧ 0x80 ≤ (out.getD 1 0).val) ∧
    (∀ bs : List Byte, bs.length < out.length → (∀ c ∈ bs.head?, c.val < 0x80) →
      (beValue bs : Int) ≠ v) := by
  have hv0 : v ≠ 0 := by
    rintro rfl
    have h2 : (mpint.Marshal ⟨0⟩).2 = none := congrArg Prod.snd h
    exact absurd h2 (by decide)
  obtain ⟨b0, rest, _, hb0, hval, hM⟩ := Marshal_nonzero v hv0
  have habs : (v.natAbs : Int) = v := Int.natAbs_of_nonneg hv
  rw [hM] at h
  have hout : out = if b0 < 0x80 then b0 :: rest else (0 : Byte) :: b0 :: rest :=
    (congrArg Prod.fst h).symm
  refine ⟨?_, ?_, ?_, ?_⟩
  · rw [hout]
    split
    · rw [hval, habs]
    · rw [beValue_zero_cons, hval, habs]
  · intro b hb
    rw [hout] at hb
    by_cases hlt : b0 < 0x80
    · simp only [if_pos hlt, List.head?_cons, Option.mem_def, Option.some.injEq] at hb
      subst hb
      exact (byte_lt_iff _).mp hlt
    · simp only [if_neg hlt, List.head?_cons, Option.mem_def, Option.some.injEq] at hb
      subst hb
      decide
  · intro hz
    rw [hout] at hz ⊢
    by_cases hlt : b0 < 0x80
    · simp only [if_pos hlt, List.head?_cons, Option.some.injEq] at hz
      rw [hz] at hb0
      exact absurd rfl hb0
    · simp only [if_neg hlt, List.length_cons, List.getD_cons_succ, List.getD_cons_zero]
      rw [byte_lt_iff] at hlt
      omega
  · intro bs hlen hclear heq
    rw [hout] at hlen
    apply shorter_clear_ne b0 rest bs hb0 hclear hlen
    rw [hval]
    have : ((beValue bs : Nat) : Int) = (v.natAbs : Int) := by rw [heq, habs]
    exact_mod_cast this

/-- C6 witness: 128 is encoded as `[0x00, 0x80]`. -/
theorem C6_minimal_witness :
    (beValue [0x00, 0x80] : Int) = 128 ∧
    (∀ b ∈ ([0x00, 0x80] : List Byte).head?, b.val < 0x80) ∧
    (([0x00, 0x80] : List Byte).head? = some 0 →
      2 ≤ ([0x00, 0x80] : List Byte).length ∧ 0x80 ≤ (([0x00, 0x80] : List Byte).getD 1 0).val) ∧
    (∀ bs : List Byte, bs.length < ([0x00, 0x80] : List Byte).length →
      (∀ c ∈ bs.head?, c.val < 0x80) → (beValue bs : Int) ≠ 128) :=
  C6_minimal 128 [0x00, 0x80] (by decide) (by decide)

/-- C7: whenever `MarshalInto` succeeds, the number of bytes written, that is
`len(dest)` minus the length of the returned remainder, is exactly
`MarshaledLength`; the remainder starts at that offset of the buffer, whose
length the call does not change. -/
theorem C7_written_length (L : NameList) (dest : List Byte)
    (h : (NameList.MarshalInto L dest).err = none) :
    (NameList.MarshalInto L dest).ret.length ≤ dest.length ∧
    dest.length - (NameList.MarshalInto L dest).ret.length = NameList.MarshaledLength L ∧
    (NameList.MarshalInto L dest).off = NameList.MarshaledLength L ∧
    (NameList.MarshalInto L dest).mem.length = dest.length := by
  have hle := (MarshalInto_err_none_iff L dest).mp h
  rw [MarshalInto_ok L dest hle, MarshaledLength_eq_join]
  simp only [MarshalIntoResult.ret, wire_drop, List.length_drop, List.length_append,
    be32_length]
  exact ⟨by omega, by omega, trivial, by omega⟩

/-- C7 witness: a list with empty-string entries, `["", "a", ""]`, written into
a ten-byte buffer: seven bytes are written. -/
theorem C7_written_length_witness :
    (NameList.MarshalInto [[], [97], []] (List.replicate 10 7)).ret.length
      ≤ (List.replicate 10 (7 : Byte)).length ∧
    (List.replicate 10 (7 : Byte)).length
        - (NameList.MarshalInto [[], [97], []] (List.replicate 10 7)).ret.length
      = NameList.MarshaledLength [[], [97], []] ∧
    (NameList.MarshalInto [[], [97], []] (List.replicate 10 7)).off
      = NameList.MarshaledLength [[], [97], []] ∧
    (NameList.MarshalInto [[], [97], []] (List.replicate 10 7)).mem.length
      = (List.replicate 10 (7 : Byte)).length :=
  C7_written_length [[], [97], []] (List.replicate 10 7) (by decide)

/-- C8: `MarshaledLength L` is 4 when `L` is empty, and otherwise 4 plus the sum
of the byte lengths of the entries plus the number of entries minus one. -/
theorem C8_MarshaledLength_formula (L : NameList) :
    NameList.MarshaledLength L =
      if L = [] then 4 else 4 + (L.map List.length).sum + (L.length - 1) := by
  cases L with
  | nil => rfl
  | cons a rest =>
    rw [if_neg (by simp), MarshaledLength_eq_join, stringsJoin_length]
    simp only [List.length_cons]
    omega

/-- A list holding one name of `N` bytes `a`, written into a buffer of `N + 4`
bytes: when `N` is a positive multiple of `2 ^ 32` the call succeeds and the
four length bytes are all zero, which is not the length of the name. -/
theorem MarshalInto_wrapped_length (N : Nat) (hN0 : 0 < N) (hN : N % 2 ^ 32 = 0) :
    (NameList.MarshalInto [List.replicate N 97] (List.replicate (N + 4) 0)).err = none ∧
    (stringsJoin [List.replicate N 97] [comma]).length = N ∧
    (NameList.MarshalInto [List.replicate N 97] (List.replicate (N + 4) 0)).mem.take 4
      = [0, 0, 0, 0] ∧
    beValue ((NameList.MarshalInto [List.replicate N 97]
        (List.replicate (N + 4) 0)).mem.take 4)
      ≠ (stringsJoin [List.replicate N 97] [comma]).length := by
  have hj : stringsJoin [List.replicate N (97 : Byte)] [comma] = List.replicate N 97 := rfl
  have hjl : (stringsJoin [List.replicate N (97 : Byte)] [comma]).length = N := by
    rw [hj, List.length_replicate]
  have hM := MarshalInto_ok [List.replicate N 97] (List.replicate (N + 4) 0)
    (by rw [hjl, List.length_replicate]; omega)
  rw [hjl, hN] at hM
  have htake : List.take 4 (be32 0 ++ (stringsJoin [List.replicate N (97 : Byte)] [comma]
      ++ List.drop (4 + N) (List.replicate (N + 4) (0 : Byte)))) = [0, 0, 0, 0] := by
    rw [List.take_append_of_le_length (by simp [be32_length])]
    decide
  have hv : beValue ([0, 0, 0, 0] : List Byte) = 0 := by decide
  rw [hM]
  refine ⟨rfl, hjl, htake, ?_⟩
  rw [htake, hv, hjl]
  omega

/-- C9, as stated, fails: for the one-entry list whose name is `2^32` bytes `a`
and a buffer of `2^32 + 4` bytes, `MarshalInto` succeeds and the first four
bytes of the buffer are `[0,0,0,0]`, which denote 0 and not the length `2^32`
of the comma-joined entries. -/
theorem C9_length_bytes_wrap :
    (NameList.MarshalInto [List.replicate (2 ^ 32) 97]
      (List.replicate (2 ^ 32 + 4) 0)).err = none ∧
    (stringsJoin [List.replicate (2 ^ 32) 97] [comma]).length = 2 ^ 32 ∧
    (NameList.MarshalInto [List.replicate (2 ^ 32) 97]
      (List.replicate (2 ^ 32 + 4) 0)).mem.take 4 = [0, 0, 0, 0] ∧
    beValue ((NameList.MarshalInto [List.replicate (2 ^ 32) 97]
        (List.replicate (2 ^ 32 + 4) 0)).mem.take 4)
      ≠ (stringsJoin [List.replicate (2 ^ 32) 97] [comma]).length :=
  MarshalInto_wrapped_length (2 ^ 32) (Nat.pos_pow_of_pos 32 (by decide)) (Nat.mod_self _)

/-- C9 (amended): whenever `MarshalInto` succeeds, the first four bytes of the
buffer are the big-endian encoding of the length of the comma-joined entries
taken modulo `2^32`, which is the length itself whenever it is below `2^32`,
the following bytes are the entries joined by single commas, every byte after
the written region is unchanged, and the returned slice is the tail of the
buffer right after the written bytes; `["a", "bc"]` is written as `[0,0,0,4]`
followed by `a,bc`. -/
theorem C9_wire_layout (L : NameList) (dest : List Byte)
    (h : (NameList.MarshalInto L dest).err = none) :
    (NameList.MarshalInto L dest).mem.take 4 = be32 (stringsJoin L [comma]).length ∧
    beValue ((NameList.MarshalInto L dest).mem.take 4)
      = (stringsJoin L [comma]).length % 2 ^ 32 ∧
    ((stringsJoin L [comma]).length < 2 ^ 32 →
      beValue ((NameList.MarshalInto L dest).mem.take 4) = (stringsJoin L [comma]).length) ∧
    ((NameList.MarshalInto L dest).mem.drop 4).take (stringsJoin L [comma]).length
      = stringsJoin L [comma] ∧
    (NameList.MarshalInto L dest).mem.drop (4 + (stringsJoin L [comma]).length)
      = dest.drop (4 + (stringsJoin L [comma]).length) ∧
    (NameList.MarshalInto L dest).mem.length = dest.length ∧
    (NameList.MarshalInto L dest).ret
      = (NameList.MarshalInto L dest).mem.drop (4 + (stringsJoin L [comma]).length) ∧
    NameList.MarshalInto [[97], [98, 99]] [7, 7, 7, 7, 7, 7, 7, 7, 7]
      = ⟨[0, 0, 0, 4, 97, 44, 98, 99, 7], 8, none⟩ := by
  have hle := (MarshalInto_err_none_iff L dest).mp h
  rw [MarshalInto_ok L dest hle, be32_mod]
  have htake : List.take 4 (be32 (stringsJoin L [comma]).length
      ++ (stringsJoin L [comma] ++ dest.drop (4 + (stringsJoin L [comma]).length)))
      = be32 (stringsJoin L [comma]).length := by
    rw [List.take_append_of_le_length (by simp [be32_length])]
    exact List.take_of_length_le (by simp [be32_length])
  have hdrop : List.drop 4 (be32 (stringsJoin L [comma]).length
      ++ (stringsJoin L [comma] ++ dest.drop (4 + (stringsJoin L [comma]).length)))
      = stringsJoin L [comma] ++ dest.drop (4 + (stringsJoin L [comma]).length) := by
    simp [be32]
  have hdrop2 : List.drop (4 + (stringsJoin L [comma]).length)
      (be32 (stringsJoin L [comma]).length
      ++ (stringsJoin L [comma] ++ dest.drop (4 + (stringsJoin L [comma]).length)))
      = dest.drop (4 + (stringsJoin L [comma]).length) := wire_drop _ _ _
  refine ⟨htake, ?_, ?_, ?_, hdrop2, ?_, ?_, by decide⟩
  · rw [htake, beValue_be32]
  · intro hlt
    rw [htake, beValue_be32, Nat.mod_eq_of_lt hlt]
  · rw [hdrop, List.take_left]
  · simp only [List.length_append, be32_length, List.length_drop]
    omega
  · simp only [MarshalIntoResult.ret]

/-- C9 witness: `["a", "bc"]` written into a nine-byte buffer. -/
theorem C9_wire_layout_witness :
    (NameList.MarshalInto [[97], [98, 99]] [7, 7, 7, 7, 7, 7, 7, 7, 7]).mem.take 4
      = [0, 0, 0, 4] ∧
    ((NameList.MarshalInto [[97], [98, 99]] [7, 7, 7, 7, 7, 7, 7, 7, 7]).mem.drop 4).take 4
      = [97, 44, 98, 99] ∧
    (NameList.MarshalInto [[97], [98, 99]] [7, 7, 7, 7, 7, 7, 7, 7, 7]).mem.drop 8 = [7] ∧
    (NameList.MarshalInto [[97], [98, 99]] [7, 7, 7, 7, 7, 7, 7, 7, 7]).ret = [7] := by
  have h := C9_wire_layout [[97], [98, 99]] [7, 7, 7, 7, 7, 7, 7, 7, 7] (by decide)
  exact ⟨h.1, h.2.2.2.1, h.2.2.2.2.1, by decide⟩

/-- C10: `MarshalInto` returns the short-buffer error exactly when
`len(dest) < 4` or `len(dest) - 4` is less than the length of the comma-joined
entries; it returns no other error; and when it fails it returns `dest` itself,
at full length, with no byte of `dest` modified. -/
theorem C10_short_buffer (L : NameList) (dest : List Byte) :
    ((NameList.MarshalInto L dest).err = some SshError.errShortBuffer ↔
      (dest.length < 4 ∨ dest.length - 4 < (stringsJoin L [comma]).length)) ∧
    ((NameList.MarshalInto L dest).err ≠ none →
      (NameList.MarshalInto L dest).err = some SshError.errShortBuffer ∧
      (NameList.MarshalInto L dest).mem = dest ∧
      (NameList.MarshalInto L dest).off = 0 ∧
      (NameList.MarshalInto L dest).ret = dest) := by
  by_cases hle : 4 + (stringsJoin L [comma]).length ≤ dest.length
  · rw [MarshalInto_ok L dest hle]
    refine ⟨⟨fun h => (by cases h), fun h => (by omega)⟩, fun h => absurd rfl h⟩
  · rw [MarshalInto_short L dest (by omega)]
    refine ⟨⟨fun _ => (by omega), fun _ => rfl⟩, fun _ => ⟨rfl, rfl, rfl, rfl⟩⟩

/-- C10 witness: `["ab"]` does not fit a five-byte buffer, which is returned
untouched. -/
theorem C10_short_buffer_witness :
    (NameList.MarshalInto [[97, 98]] [1, 2, 3, 4, 5]).err = some SshError.errShortBuffer ∧
    (NameList.MarshalInto [[97, 98]] [1, 2, 3, 4, 5]).mem = [1, 2, 3, 4, 5] ∧
    (NameList.MarshalInto [[97, 98]] [1, 2, 3, 4, 5]).off = 0 ∧
    (NameList.MarshalInto [[97, 98]] [1, 2, 3, 4, 5]).ret = [1, 2, 3, 4, 5] :=
  (C10_short_buffer [[97, 98]] [1, 2, 3, 4, 5]).2 (by decide)

/-! ## Further lemmas on `Unmarshal`, `strings.Split` and `strings.Join` -/

/-- The failing branches of `Unmarshal`. -/
theorem Unmarshal_fail (n : NameList) (raw : List Byte)
    (h : raw.length < 4 ∨ (raw.length - 4) % 2 ^ 32 < Uint32 raw) :
    NameList.Unmarshal n raw = ⟨n, raw, false⟩ := by
  by_cases h4 : raw.length < 4
  · simp [NameList.Unmarshal, h4]
  · have hk : (raw.drop 4).length % 2 ^ 32 < Uint32 raw := by
      rw [List.length_drop]
      rcases h with h | h
      · exact absurd h h4
      · exact h
    simp only [NameList.Unmarshal, if_neg h4, if_pos hk]

/-- The successful branch of `Unmarshal`, in closed form. -/
theorem Unmarshal_success (n : NameList) (raw : List Byte) (h4 : 4 ≤ raw.length)
    (hk : Uint32 raw ≤ (raw.length - 4) % 2 ^ 32) :
    NameList.Unmarshal n raw =
      ⟨if Uint32 raw = 0 then [] else stringsSplit ((raw.drop 4).take (Uint32 raw)) comma,
        raw.drop (4 + Uint32 raw), true⟩ := by
  have h4n : ¬ raw.length < 4 := by omega
  have hkn : ¬ (raw.drop 4).length % 2 ^ 32 < Uint32 raw := by
    rw [List.length_drop]
    omega
  have hle : Uint32 raw ≤ raw.length - 4 := le_trans hk (Nat.mod_le _ _)
  have hlen : ((raw.drop 4).take (Uint32 raw)).length = Uint32 raw := by
    rw [List.length_take, List.length_drop]
    omega
  simp only [NameList.Unmarshal, if_neg h4n, if_neg hkn, hlen, List.drop_drop]

/-- `Unmarshal` succeeds exactly when neither guard fires. -/
theorem Unmarshal_ok_iff (n : NameList) (raw : List Byte) :
    (NameList.Unmarshal n raw).ok = true ↔
      4 ≤ raw.length ∧ Uint32 raw ≤ (raw.length - 4) % 2 ^ 32 := by
  constructor
  · intro h
    by_contra hc
    rw [Unmarshal_fail n raw (by omega)] at h
    cases h
  · rintro ⟨h4, hk⟩
    rw [Unmarshal_success n raw h4 hk]

theorem stringsSplit_ne_nil (s : List Byte) (sep : Byte) : stringsSplit s sep ≠ [] := by
  induction s with
  | nil => simp [stringsSplit]
  | cons c cs ih =>
    unfold stringsSplit
    split
    · simp
    · split
      · simp
      · simp

/-- Joining what `strings.Split` returns gives the string back. -/
theorem stringsJoin_stringsSplit (s : List Byte) (sep : Byte) :
    stringsJoin (stringsSplit s sep) [sep] = s := by
  induction s with
  | nil => rfl
  | cons c cs ih =>
    unfold stringsSplit
    by_cases hc : c = sep
    · rw [if_pos hc]
      cases hs : stringsSplit cs sep with
      | nil => exact absurd hs (stringsSplit_ne_nil cs sep)
      | cons w ws =>
        rw [hs] at ih
        simp [stringsJoin, ih, hc]
    · rw [if_neg hc]
      cases hs : stringsSplit cs sep with
      | nil => exact absurd hs (stringsSplit_ne_nil cs sep)
      | cons w ws =>
        rw [hs] at ih
        cases ws with
        | nil =>
          simp only [stringsJoin] at ih ⊢
          rw [ih]
        | cons x xs =>
          simp only [stringsJoin, List.cons_append] at ih ⊢
          rw [ih]

/-- No substring returned by `strings.Split` holds the separator. -/
theorem stringsSplit_no_sep_mem (s : List Byte) (sep : Byte) :
    ∀ e ∈ stringsSplit s sep, sep ∉ e := by
  induction s with
  | nil => simp [stringsSplit]
  | cons c cs ih =>
    unfold stringsSplit
    by_cases hc : c = sep
    · rw [if_pos hc]
      intro e he
      rcases List.mem_cons.mp he with rfl | he
      · simp
      · exact ih e he
    · rw [if_neg hc]
      cases hs : stringsSplit cs sep with
      | nil => exact absurd hs (stringsSplit_ne_nil cs sep)
      | cons w ws =>
        rw [hs] at ih
        intro e he
        rcases List.mem_cons.mp he with rfl | he
        · intro hmem
          rcases List.mem_cons.mp hmem with h | h
          · exact hc h.symm
          · exact ih w (by simp) h
        · exact ih e (List.mem_cons_of_mem _ he)

/-- `strings.Split` returns one substring more than there are separators. -/
theorem stringsSplit_length (s : List Byte) (sep : Byte) :
    (stringsSplit s sep).length = s.count sep + 1 := by
  induction s with
  | nil => simp [stringsSplit]
  | cons c cs ih =>
    unfold stringsSplit
    by_cases hc : c = sep
    · rw [if_pos hc, List.length_cons, ih, hc, List.count_cons_self]
    · rw [if_neg hc]
      cases hs : stringsSplit cs sep with
      | nil => exact absurd hs (stringsSplit_ne_nil cs sep)
      | cons w ws =>
        rw [hs] at ih
        rw [List.count_cons_of_ne (fun e => hc e.symm)]
        simpa using ih

/-- The length `Uint32` reads is the big-endian value of the first four bytes. -/
theorem Uint32_eq_beValue (raw : List Byte) (h : 4 ≤ raw.length) :
    Uint32 raw = beValue (raw.take 4) := by
  match raw, h with
  | a :: b :: c :: d :: rest, _ =>
    simp only [Uint32, beValue, List.getD_cons_zero, List.getD_cons_succ, List.take_succ_cons,
      List.take_zero, List.foldl_cons, List.foldl_nil]
    omega

/-- Writing back the length read from four bytes gives these four bytes. -/
theorem be32_Uint32 (raw : List Byte) (h : 4 ≤ raw.length) :
    be32 (Uint32 raw) = raw.take 4 := by
  match raw, h with
  | a :: b :: c :: d :: rest, _ =>
    have ha := a.isLt
    have hb := b.isLt
    have hc := c.isLt
    have hd := d.isLt
    simp only [Uint32, be32, List.getD_cons_zero, List.getD_cons_succ, List.take_succ_cons,
      List.take_zero, toByte, Nat.shiftRight_eq_div_pow, List.cons.injEq, and_true]
    refine ⟨?_, ?_, ?_, ?_⟩ <;> apply Fin.ext <;> simp only <;> omega

theorem wire_take (v : Nat) (body extra : List Byte) :
    List.take (4 + body.length) (be32 v ++ (body ++ extra)) = be32 v ++ body := by
  rw [List.take_add]
  have h4 : List.take 4 (be32 v ++ (body ++ extra)) = be32 v := by
    simp [be32]
  have hd : List.drop 4 (be32 v ++ (body ++ extra)) = body ++ extra := by
    simp [be32]
  rw [h4, hd, List.take_left]

/-- The commas of a join: those of the names and one between neighbours. -/
theorem count_stringsJoin (a : List Byte) (n : NameList) :
    (stringsJoin (a :: n) [comma]).count comma
      = ((a :: n).map (fun e => e.count comma)).sum + n.length := by
  induction n generalizing a with
  | nil => simp [stringsJoin]
  | cons b rest ih =>
    simp only [stringsJoin, List.count_append, ih b, List.map_cons, List.sum_cons,
      List.length_cons, List.count_singleton_self]
    omega

theorem count_le_sum (n : NameList) (e : List Byte) (he : e ∈ n) :
    e.count comma ≤ (n.map (fun e => e.count comma)).sum := by
  induction n with
  | nil => cases he
  | cons a rest ih =>
    rw [List.map_cons, List.sum_cons]
    rcases List.mem_cons.mp he with rfl | h
    · omega
    · have := ih h
      omega

/-- A list with a name that holds a comma is split into more names than it has. -/
theorem stringsSplit_stringsJoin_longer (L : NameList) (hne : L ≠ [])
    (hc : ∃ e ∈ L, comma ∈ e) :
    L.length < (stringsSplit (stringsJoin L [comma]) comma).length ∧
      (stringsJoin L [comma]).length ≠ 0 := by
  obtain ⟨e, he, hce⟩ := hc
  have h1 : 0 < e.count comma := List.count_pos_iff.mpr hce
  have h2 := count_le_sum L e he
  cases L with
  | nil => exact absurd rfl hne
  | cons a rest =>
    have h3 := count_stringsJoin a rest
    have h4 : 0 < (stringsJoin (a :: rest) [comma]).count comma := by omega
    refine ⟨?_, ?_⟩
    · rw [stringsSplit_length, h3, List.length_cons]
      omega
    · intro h0
      have hnil : stringsJoin (a :: rest) [comma] = [] := List.length_eq_zero.mp h0
      rw [hnil] at h4
      simp at h4

theorem toInt_of_lt (x : Nat) (h : x < 2 ^ 32) : toInt x = (x : Int) := by
  have h1 : x % 2 ^ 64 = x := Nat.mod_eq_of_lt (by omega)
  have h2 : x < 2 ^ 63 := by omega
  simp only [toInt, h1, if_pos h2]

theorem expectedLength_eq (p m : Nat) :
    expectedLength p m = (((p + m + 4) % 2 ^ 32 : Nat) : Int) := by
  have h : ((p + m) % 2 ^ 32 + 4) % 2 ^ 32 = (p + m + 4) % 2 ^ 32 := by omega
  simp only [expectedLength, h]
  exact toInt_of_lt _ (Nat.mod_lt _ (by norm_num))

/-- A buffer of `N + 4` bytes that declares one byte of body: when `N` is a
multiple of `2 ^ 32`, the guard of `Unmarshal` sees no remaining bytes. -/
theorem Unmarshal_wrapped_length (n : NameList) (N : Nat) (hN0 : 0 < N)
    (hN : N % 2 ^ 32 = 0) :
    ¬ ((0 : Byte) :: 0 :: 0 :: 1 :: List.replicate N 0).length < 4 ∧
    ¬ ((0 : Byte) :: 0 :: 0 :: 1 :: List.replicate N 0).length - 4
        < Uint32 ((0 : Byte) :: 0 :: 0 :: 1 :: List.replicate N 0) ∧
    NameList.Unmarshal n ((0 : Byte) :: 0 :: 0 :: 1 :: List.replicate N 0)
      = ⟨n, (0 : Byte) :: 0 :: 0 :: 1 :: List.replicate N 0, false⟩ := by
  have hU : Uint32 ((0 : Byte) :: 0 :: 0 :: 1 :: List.replicate N 0) = 1 := by
    simp [Uint32]
  have hl : ((0 : Byte) :: 0 :: 0 :: 1 :: List.replicate N 0).length = N + 4 := by
    simp
  refine ⟨by omega, by omega, ?_⟩
  apply Unmarshal_fail
  right
  rw [hU, hl, Nat.add_sub_cancel, hN]
  exact Nat.one_pos

/-- C11: `MarshalInto` into a buffer of exactly `MarshaledLength L` bytes
succeeds and returns a remainder of length 0; into a buffer of
`MarshaledLength L - 1` bytes it fails with the short-buffer error. -/
theorem C11_exact_fit (L : NameList) (dest short : List Byte)
    (hd : dest.length = NameList.MarshaledLength L)
    (hs : short.length = NameList.MarshaledLength L - 1) :
    (NameList.MarshalInto L dest).err = none ∧
    (NameList.MarshalInto L dest).ret.length = 0 ∧
    (NameList.MarshalInto L short).err = some SshError.errShortBuffer := by
  rw [MarshaledLength_eq_join] at hd hs
  rw [MarshalInto_ok L dest (by omega), MarshalInto_short L short (by omega)]
  refine ⟨rfl, ?_, rfl⟩
  simp only [MarshalIntoResult.ret, wire_drop, List.length_drop]
  omega

/-- C11 witness: `["a", "bc"]` with buffers of eight and of seven bytes. -/
theorem C11_exact_fit_witness :
    (NameList.MarshalInto [[97], [98, 99]] [0, 0, 0, 0, 0, 0, 0, 0]).err = none ∧
    (NameList.MarshalInto [[97], [98, 99]] [0, 0, 0, 0, 0, 0, 0, 0]).ret.length = 0 ∧
    (NameList.MarshalInto [[97], [98, 99]] [0, 0, 0, 0, 0, 0, 0]).err
      = some SshError.errShortBuffer :=
  C11_exact_fit [[97], [98, 99]] [0, 0, 0, 0, 0, 0, 0, 0] [0, 0, 0, 0, 0, 0, 0] (by decide)
    (by decide)

/-- C12, as stated, fails: a buffer of `2^32 + 4` bytes that declares a body of
one byte has at least four bytes and its declared length does not exceed the
`2^32` bytes that remain, yet `Unmarshal` returns `ok = false`, because its
guard compares `uint32(len(b))`, which is 0. -/
theorem C12_large_buffer_rejected :
    ¬ ((0 : Byte) :: 0 :: 0 :: 1 :: List.replicate (2 ^ 32) 0).length < 4 ∧
    ¬ ((0 : Byte) :: 0 :: 0 :: 1 :: List.replicate (2 ^ 32) 0).length - 4
        < Uint32 ((0 : Byte) :: 0 :: 0 :: 1 :: List.replicate (2 ^ 32) 0) ∧
    NameList.Unmarshal [] ((0 : Byte) :: 0 :: 0 :: 1 :: List.replicate (2 ^ 32) 0)
      = ⟨[], (0 : Byte) :: 0 :: 0 :: 1 :: List.replicate (2 ^ 32) 0, false⟩ :=
  Unmarshal_wrapped_length [] (2 ^ 32) (Nat.pos_pow_of_pos 32 (by decide)) (Nat.mod_self _)

/-- C12 (amended): for every byte sequence `raw`, `Unmarshal` returns
`ok = false` if `raw` has fewer than 4 bytes or if the length declared in its
first 4 bytes exceeds the number of bytes after them; for every `raw` of fewer
than `2^32 + 4` bytes it returns `ok = true` otherwise; and whenever
`ok = false` the returned slice is `raw` itself. -/
theorem C12_malformed_input (n : NameList) (raw : List Byte) :
    ((raw.length < 4 ∨ raw.length - 4 < Uint32 raw) → (NameList.Unmarshal n raw).ok = false) ∧
    (raw.length < 2 ^ 32 + 4 → ¬ (raw.length < 4 ∨ raw.length - 4 < Uint32 raw) →
      (NameList.Unmarshal n raw).ok = true) ∧
    ((NameList.Unmarshal n raw).ok = false → (NameList.Unmarshal n raw).rest = raw) := by
  refine ⟨?_, ?_, ?_⟩
  · intro h
    have hmod : (raw.length - 4) % 2 ^ 32 ≤ raw.length - 4 := Nat.mod_le _ _
    rw [Unmarshal_fail n raw (by omega)]
  · intro hlt h
    have hmod : (raw.length - 4) % 2 ^ 32 = raw.length - 4 := Nat.mod_eq_of_lt (by omega)
    exact (Unmarshal_ok_iff n raw).mpr ⟨by omega, by omega⟩
  · intro h
    by_cases hok : 4 ≤ raw.length ∧ Uint32 raw ≤ (raw.length - 4) % 2 ^ 32
    · rw [(Unmarshal_ok_iff n raw).mpr hok] at h
      cases h
    · rw [Unmarshal_fail n raw (by omega)]

/-- C12 witness: five bytes declaring a body of five bytes are rejected and
returned as they are; five bytes declaring a body of one byte are accepted. -/
theorem C12_malformed_input_witness :
    (NameList.Unmarshal [] [0, 0, 0, 5, 97]).ok = false ∧
    (NameList.Unmarshal [] [0, 0, 0, 1, 97]).ok = true ∧
    (NameList.Unmarshal [] [0, 0, 0, 5, 97]).rest = [0, 0, 0, 5, 97] :=
  ⟨(C12_malformed_input [] [0, 0, 0, 5, 97]).1 (by decide),
    (C12_malformed_input [] [0, 0, 0, 1, 97]).2.1 (by decide) (by decide),
    (C12_malformed_input [] [0, 0, 0, 5, 97]).2.2 (by decide)⟩

/-- C13: whenever `Unmarshal` succeeds, with `k` the length declared in the
first four bytes, `raw` holds at least `4 + k` bytes, the decoded list is empty
when `k = 0` and otherwise is the body `raw[4 .. 4+k)` split at every comma
(its names hold no comma, joined by commas they give the body back, and there
is one more of them than there are commas), and the returned remainder is
exactly `raw[4+k ..]`. -/
theorem C13_success_result (n0 : NameList) (raw : List Byte)
    (hok : (NameList.Unmarshal n0 raw).ok = true) :
    Uint32 raw = beValue (raw.take 4) ∧
    4 + Uint32 raw ≤ raw.length ∧
    (Uint32 raw = 0 → (NameList.Unmarshal n0 raw).n = []) ∧
    (0 < Uint32 raw →
      (NameList.Unmarshal n0 raw).n = stringsSplit ((raw.drop 4).take (Uint32 raw)) comma ∧
      stringsJoin (NameList.Unmarshal n0 raw).n [comma] = (raw.drop 4).take (Uint32 raw) ∧
      (∀ e ∈ (NameList.Unmarshal n0 raw).n, comma ∉ e) ∧
      (NameList.Unmarshal n0 raw).n.length
        = ((raw.drop 4).take (Uint32 raw)).count comma + 1) ∧
    (NameList.Unmarshal n0 raw).rest = raw.drop (4 + Uint32 raw) ∧
    raw.take (4 + Uint32 raw) ++ (NameList.Unmarshal n0 raw).rest = raw := by
  obtain ⟨h4, hk⟩ := (Unmarshal_ok_iff n0 raw).mp hok
  have hle : Uint32 raw ≤ raw.length - 4 := le_trans hk (Nat.mod_le _ _)
  have hS := Unmarshal_success n0 raw h4 hk
  refine ⟨Uint32_eq_beValue raw h4, by omega, ?_, ?_, ?_, ?_⟩
  · intro h0
    rw [hS]
    simp only [if_pos h0]
  · intro hpos
    have hne : Uint32 raw ≠ 0 := by omega
    have hn : (NameList.Unmarshal n0 raw).n
        = stringsSplit ((raw.drop 4).take (Uint32 raw)) comma := by
      rw [hS]
      simp only [if_neg hne]
    rw [hn]
    exact ⟨rfl, stringsJoin_stringsSplit _ _, stringsSplit_no_sep_mem _ _,
      stringsSplit_length _ _⟩
  · rw [hS]
  · rw [hS]
    exact List.take_append_drop _ _

/-- C13 witness: the wire form of `["a", "bc"]` followed by one extra byte. -/
theorem C13_success_result_witness :
    (NameList.Unmarshal [] [0, 0, 0, 4, 97, 44, 98, 99, 7]).n = [[97], [98, 99]] ∧
    (NameList.Unmarshal [] [0, 0, 0, 4, 97, 44, 98, 99, 7]).rest = [7] := by
  have h := C13_success_result [] [0, 0, 0, 4, 97, 44, 98, 99, 7] (by decide)
  exact ⟨(h.2.2.2.1 (by decide)).1, h.2.2.2.2.1⟩

/-- C14: the empty NameList has marshaled length 4 and is written as
`[0,0,0,0]`; and on every `raw` of at least 4 bytes whose declared length is 0,
`Unmarshal` succeeds with a list of zero entries, not the list holding the empty
name, and returns `raw[4 ..]`. -/
theorem C14_empty_list (dest raw : List Byte) (n0 : NameList)
    (hd : dest.length = 4) (h4 : 4 ≤ raw.length) (hk : Uint32 raw = 0) :
    NameList.MarshaledLength [] = 4 ∧
    NameList.MarshalInto [] dest = ⟨[0, 0, 0, 0], 4, none⟩ ∧
    NameList.Unmarshal n0 raw = ⟨[], raw.drop 4, true⟩ ∧
    (NameList.Unmarshal n0 raw).n.length = 0 ∧
    (NameList.Unmarshal n0 raw).n ≠ [[]] := by
  have hU := Unmarshal_success n0 raw h4 (by omega)
  rw [hk] at hU
  have hM := MarshalInto_ok [] dest (by simp [stringsJoin, hd])
  have hdrop : dest.drop 4 = [] := List.drop_of_length_le (by omega)
  have hU2 : NameList.Unmarshal n0 raw = ⟨[], raw.drop 4, true⟩ := by
    rw [hU]
    simp
  rw [hU2, hM]
  refine ⟨rfl, ?_, rfl, rfl, by simp⟩
  simp only [stringsJoin, List.length_nil, Nat.add_zero, hdrop]
  decide

/-- C14 witness: a four-byte buffer, and a zero length followed by two bytes. -/
theorem C14_empty_list_witness :
    NameList.MarshaledLength [] = 4 ∧
    NameList.MarshalInto [] [9, 9, 9, 9] = ⟨[0, 0, 0, 0], 4, none⟩ ∧
    NameList.Unmarshal [[1]] [0, 0, 0, 0, 5, 6] = ⟨[], List.drop 4 [0, 0, 0, 0, 5, 6], true⟩ ∧
    (NameList.Unmarshal [[1]] [0, 0, 0, 0, 5, 6]).n.length = 0 ∧
    (NameList.Unmarshal [[1]] [0, 0, 0, 0, 5, 6]).n ≠ [[]] :=
  C14_empty_list [9, 9, 9, 9] [0, 0, 0, 0, 5, 6] [[1]] (by decide) (by decide) (by decide)

/-- C15, as stated, fails: for the 32-bit values `2^32 - 1` and `0` the sum
`packetLength + macLength + 4` is `2^32 + 3`, and `expectedLength` returns 3. -/
theorem C15_sum_wraps :
    (2 ^ 32 - 1 : Nat) < 2 ^ 32 ∧ (0 : Nat) < 2 ^ 32 ∧
    expectedLength (2 ^ 32 - 1) 0 = 3 ∧
    expectedLength (2 ^ 32 - 1) 0 ≠ ((2 ^ 32 - 1 : Nat) : Int) + ((0 : Nat) : Int) + 4 := by
  have h : expectedLength (2 ^ 32 - 1) 0 = 3 := by
    rw [expectedLength_eq]
    norm_num
  refine ⟨by norm_num, by norm_num, h, ?_⟩
  rw [h]
  norm_num

/-- C15 (amended): for all 32-bit unsigned `packetLength` and `macLength` whose
sum with 4 is below `2^32`, `expectedLength` returns
`packetLength + macLength + 4` as an integer; it is a total function; and
`expectedLength 10 20 = 34`. -/
theorem C15_expectedLength_sum (packetLength macLength : Nat)
    (_hp : packetLength < 2 ^ 32) (_hm : macLength < 2 ^ 32)
    (hsum : packetLength + macLength + 4 < 2 ^ 32) :
    expectedLength packetLength macLength = (packetLength : Int) + (macLength : Int) + 4 ∧
    expectedLength 10 20 = 34 := by
  refine ⟨?_, by decide⟩
  rw [expectedLength_eq, Nat.mod_eq_of_lt hsum]
  push_cast
  ring

/-- C15 witness: a packet length of 35000 and a MAC length of 32. -/
theorem C15_expectedLength_sum_witness :
    expectedLength 35000 32 = ((35000 : Nat) : Int) + ((32 : Nat) : Int) + 4 ∧
    expectedLength 10 20 = 34 :=
  C15_expectedLength_sum 35000 32 (by norm_num) (by norm_num) (by norm_num)

/-- A list holding one name of `N` commas, written into a buffer of `N + 4`
bytes: when `N` is a multiple of `2 ^ 32` the length written is 0 and the
bytes decode as the empty list. -/
theorem Unmarshal_wrapped_join (n0 : NameList) (N : Nat) (hN0 : 0 < N)
    (hN : N % 2 ^ 32 = 0) :
    ([List.replicate N comma] : NameList) ≠ [] ∧
    (∃ e ∈ ([List.replicate N comma] : NameList), comma ∈ e) ∧
    (List.replicate (N + 4) (0 : Byte)).length
      = NameList.MarshaledLength [List.replicate N comma] ∧
    (NameList.MarshalInto [List.replicate N comma] (List.replicate (N + 4) 0)).err = none ∧
    (NameList.Unmarshal n0
      (NameList.MarshalInto [List.replicate N comma] (List.replicate (N + 4) 0)).mem).ok
      = true ∧
    (NameList.Unmarshal n0
      (NameList.MarshalInto [List.replicate N comma] (List.replicate (N + 4) 0)).mem).n
      = [] := by
  have hj : stringsJoin [List.replicate N comma] [comma] = List.replicate N comma := rfl
  have hjl : (stringsJoin [List.replicate N comma] [comma]).length = N := by
    rw [hj, List.length_replicate]
  have hM := MarshalInto_ok [List.replicate N comma] (List.replicate (N + 4) 0)
    (by rw [hjl, List.length_replicate]; omega)
  rw [hjl, hN] at hM
  have hU : Uint32 (be32 0 ++ (stringsJoin [List.replicate N comma] [comma]
      ++ List.drop (4 + N) (List.replicate (N + 4) (0 : Byte)))) = 0 := by
    rw [Uint32_be32_mod]
    rfl
  have h4 : 4 ≤ (be32 0 ++ (stringsJoin [List.replicate N comma] [comma]
      ++ List.drop (4 + N) (List.replicate (N + 4) (0 : Byte)))).length := by
    rw [List.length_append, be32_length]
    omega
  have hS := Unmarshal_success n0 _ h4 (by rw [hU]; exact Nat.zero_le _)
  rw [hU] at hS
  refine ⟨by simp, ⟨_, List.mem_singleton_self _, ?_⟩, ?_, ?_, ?_, ?_⟩
  · exact List.mem_replicate.mpr ⟨by omega, rfl⟩
  · rw [MarshaledLength_eq_join, hjl, List.length_replicate]
    omega
  · rw [hM]
  · rw [hM, hS]
  · rw [hM, hS]
    rfl

/-- C16, as stated, fails: the one-entry list whose name is `2^32` commas is
non-empty and has a comma in an entry; `MarshalInto` succeeds on a buffer of
`MarshaledLength` bytes, but writes the length `uint32(2^32) = 0`, so that
`Unmarshal` of the written bytes succeeds with the empty list, which has fewer
entries than the list written. -/
theorem C16_long_name_decodes_empty :
    ([List.replicate (2 ^ 32) comma] : NameList) ≠ [] ∧
    (∃ e ∈ ([List.replicate (2 ^ 32) comma] : NameList), comma ∈ e) ∧
    (List.replicate (2 ^ 32 + 4) (0 : Byte)).length
      = NameList.MarshaledLength [List.replicate (2 ^ 32) comma] ∧
    (NameList.MarshalInto [List.replicate (2 ^ 32) comma]
      (List.replicate (2 ^ 32 + 4) 0)).err = none ∧
    (NameList.Unmarshal []
      (NameList.MarshalInto [List.replicate (2 ^ 32) comma]
        (List.replicate (2 ^ 32 + 4) 0)).mem).ok = true ∧
    (NameList.Unmarshal []
      (NameList.MarshalInto [List.replicate (2 ^ 32) comma]
        (List.replicate (2 ^ 32 + 4) 0)).mem).n = [] :=
  Unmarshal_wrapped_join [] (2 ^ 32) (Nat.pos_pow_of_pos 32 (by decide)) (Nat.mod_self _)

/-- C16 (amended): for every non-empty NameList `L` with a comma in at least one
entry and a wire form shorter than `2^32 + 4` bytes, whenever `MarshalInto`
succeeds, `Unmarshal` of the written bytes succeeds and yields a list with
strictly more entries than `L`, hence different from `L`; and every name of any
successfully decoded list holds no comma. -/
theorem C16_comma_names (L : NameList) (dest : List Byte) (n0 : NameList)
    (hne : L ≠ []) (hc : ∃ e ∈ L, comma ∈ e)
    (h32 : NameList.MarshaledLength L < 2 ^ 32 + 4)
    (hok : (NameList.MarshalInto L dest).err = none) :
    (NameList.Unmarshal n0
      ((NameList.MarshalInto L dest).mem.take (NameList.MarshalInto L dest).off)).ok = true ∧
    L.length < (NameList.Unmarshal n0
      ((NameList.MarshalInto L dest).mem.take (NameList.MarshalInto L dest).off)).n.length ∧
    (NameList.Unmarshal n0
      ((NameList.MarshalInto L dest).mem.take (NameList.MarshalInto L dest).off)).n ≠ L ∧
    (∀ (raw : List Byte) (n1 : NameList), (NameList.Unmarshal n1 raw).ok = true →
      ∀ e ∈ (NameList.Unmarshal n1 raw).n, comma ∉ e) := by
  have hle := (MarshalInto_err_none_iff L dest).mp hok
  rw [MarshaledLength_eq_join] at h32
  have hj : (stringsJoin L [comma]).length < 2 ^ 32 := by omega
  obtain ⟨hlong, hpos⟩ := stringsSplit_stringsJoin_longer L hne hc
  have hW := Unmarshal_wire n0 (stringsJoin L [comma]) [] (by simpa using hj)
  rw [List.append_nil, if_neg hpos] at hW
  rw [MarshalInto_ok L dest hle]
  simp only [wire_take, Nat.mod_eq_of_lt hj, hW]
  refine ⟨trivial, hlong, ?_, ?_⟩
  · intro h
    rw [h] at hlong
    exact Nat.lt_irrefl _ hlong
  · intro raw n1 h1 e he
    obtain ⟨h4, hk⟩ := (Unmarshal_ok_iff n1 raw).mp h1
    rw [Unmarshal_success n1 raw h4 hk] at he
    by_cases h0 : Uint32 raw = 0
    · simp [h0] at he
    · simp only [if_neg h0] at he
      exact stringsSplit_no_sep_mem _ _ e he

/-- C16 witness: `["a,b"]` decodes as `["a", "b"]`. -/
theorem C16_comma_names_witness :
    ([[97, 44, 98]] : NameList).length < (NameList.Unmarshal []
      ((NameList.MarshalInto [[97, 44, 98]] [0, 0, 0, 0, 0, 0, 0]).mem.take
        (NameList.MarshalInto [[97, 44, 98]] [0, 0, 0, 0, 0, 0, 0]).off)).n.length :=
  (C16_comma_names [[97, 44, 98]] [0, 0, 0, 0, 0, 0, 0] [] (by decide) (by decide) (by decide)
    (by decide)).2.1

/-- C17: whenever `Unmarshal` succeeds on `raw`, with declared length `k` and
decoded list `L`, `MarshalInto` of `L` into a buffer of `4 + k` bytes succeeds,
fills the buffer with exactly the bytes `raw[0 .. 4+k)`, and
`MarshaledLength L = 4 + k`. -/
theorem C17_reencode (n0 : NameList) (raw dest : List Byte)
    (hok : (NameList.Unmarshal n0 raw).ok = true)
    (hd : dest.length = 4 + Uint32 raw) :
    (NameList.MarshalInto (NameList.Unmarshal n0 raw).n dest).err = none ∧
    (NameList.MarshalInto (NameList.Unmarshal n0 raw).n dest).mem
      = raw.take (4 + Uint32 raw) ∧
    (NameList.MarshalInto (NameList.Unmarshal n0 raw).n dest).off = 4 + Uint32 raw ∧
    NameList.MarshaledLength (NameList.Unmarshal n0 raw).n = 4 + Uint32 raw := by
  obtain ⟨h4, hk⟩ := (Unmarshal_ok_iff n0 raw).mp hok
  have hle : Uint32 raw ≤ raw.length - 4 := le_trans hk (Nat.mod_le _ _)
  have hbody : ((raw.drop 4).take (Uint32 raw)).length = Uint32 raw := by
    rw [List.length_take, List.length_drop]
    omega
  have hjoin : stringsJoin (NameList.Unmarshal n0 raw).n [comma]
      = (raw.drop 4).take (Uint32 raw) := by
    rw [Unmarshal_success n0 raw h4 hk]
    by_cases h0 : Uint32 raw = 0
    · simp [h0, stringsJoin]
    · simp only [if_neg h0]
      exact stringsJoin_stringsSplit _ _
  have hjl : (stringsJoin (NameList.Unmarshal n0 raw).n [comma]).length = Uint32 raw := by
    rw [hjoin, hbody]
  have hM := MarshalInto_ok (NameList.Unmarshal n0 raw).n dest (by omega)
  have hdrop : dest.drop (4 + Uint32 raw) = [] := List.drop_of_length_le (by omega)
  rw [hjl, be32_mod, be32_Uint32 raw h4, hjoin, hdrop, List.append_nil] at hM
  rw [hM, MarshaledLength_eq_join, hjl]
  exact ⟨rfl, (List.take_add raw 4 (Uint32 raw)).symm, rfl, rfl⟩

/-- C17 witness: the wire form of `["a", "bc"]` followed by one extra byte is
decoded and written back into eight bytes. -/
theorem C17_reencode_witness :
    (NameList.MarshalInto (NameList.Unmarshal [] [0, 0, 0, 4, 97, 44, 98, 99, 7]).n
      [1, 1, 1, 1, 1, 1, 1, 1]).mem
      = List.take (4 + Uint32 [0, 0, 0, 4, 97, 44, 98, 99, 7]) [0, 0, 0, 4, 97, 44, 98, 99, 7] ∧
    List.take (4 + Uint32 [0, 0, 0, 4, 97, 44, 98, 99, 7]) [0, 0, 0, 4, 97, 44, 98, 99, 7]
      = [0, 0, 0, 4, 97, 44, 98, 99] :=
  ⟨(C17_reencode [] [0, 0, 0, 4, 97, 44, 98, 99, 7] [1, 1, 1, 1, 1, 1, 1, 1] (by decide)
    (by decide)).2.1, by decide⟩

/-- C18: for all 32-bit unsigned `packetLength` and `macLength`,
`expectedLength` returns `(packetLength + macLength + 4) mod 2^32`; this is the
true sum exactly when the sum is below `2^32`; and for `packetLength = 2^32 - 1`,
`macLength = 0` the result, 3, is smaller than `packetLength`. -/
theorem C18_wraps_at_32_bits (packetLength macLength : Nat)
    (_hp : packetLength < 2 ^ 32) (_hm : macLength < 2 ^ 32) :
    expectedLength packetLength macLength
      = (((packetLength + macLength + 4) % 2 ^ 32 : Nat) : Int) ∧
    (expectedLength packetLength macLength = (packetLength : Int) + (macLength : Int) + 4 ↔
      packetLength + macLength + 4 < 2 ^ 32) ∧
    expectedLength (2 ^ 32 - 1) 0 = 3 ∧
    expectedLength (2 ^ 32 - 1) 0 < ((2 ^ 32 - 1 : Nat) : Int) := by
  have h3 : expectedLength (2 ^ 32 - 1) 0 = 3 := by
    rw [expectedLength_eq]
    norm_num
  refine ⟨expectedLength_eq _ _, ?_, h3, ?_⟩
  · rw [expectedLength_eq]
    constructor
    · intro h
      have h' : (packetLength + macLength + 4) % 2 ^ 32 = packetLength + macLength + 4 := by
        exact_mod_cast h
      have := Nat.mod_lt (packetLength + macLength + 4) (show 0 < 2 ^ 32 by norm_num)
      omega
    · intro h
      rw [Nat.mod_eq_of_lt h]
      push_cast
      ring
  · rw [h3]
    norm_num

/-- C18 witness: a packet length of `2^32 - 10` and a MAC length of 20 give 14. -/
theorem C18_wraps_at_32_bits_witness :
    expectedLength (2 ^ 32 - 10) 20 = ((((2 ^ 32 - 10) + 20 + 4) % 2 ^ 32 : Nat) : Int) :=
  (C18_wraps_at_32_bits (2 ^ 32 - 10) 20 (by norm_num) (by norm_num)).1

/-- C19: `Marshal` ignores the sign: on `-v` it returns what it returns on `v`,
the same bytes or the same error, because only the magnitude bytes are used;
-128 and 128 are both encoded as `[0x00, 0x80]`. -/
theorem C19_sign_ignored (v : Int) :
    Bytes (-v) = Bytes v ∧
    mpint.Marshal ⟨-v⟩ = mpint.Marshal ⟨v⟩ ∧
    mpint.Marshal ⟨-128⟩ = ([0x00, 0x80], none) ∧
    mpint.Marshal ⟨128⟩ = ([0x00, 0x80], none) := by
  have hb : Bytes (-v) = Bytes v := by
    simp only [Bytes, Int.natAbs_neg]
  refine ⟨hb, ?_, by decide, by decide⟩
  simp only [mpint.Marshal, hb]

/-- C20: whenever `Unmarshal` returns `ok = false`, the receiver is left exactly
as it was before the call. -/
theorem C20_atomic_on_failure (n : NameList) (raw : List Byte)
    (h : (NameList.Unmarshal n raw).ok = false) :
    (NameList.Unmarshal n raw).n = n := by
  by_cases hok : 4 ≤ raw.length ∧ Uint32 raw ≤ (raw.length - 4) % 2 ^ 32
  · rw [(Unmarshal_ok_iff n raw).mpr hok] at h
    cases h
  · rw [Unmarshal_fail n raw (by omega)]

/-- C20 witness: a receiver holding two names and a truncated input. -/
theorem C20_atomic_on_failure_witness :
    (NameList.Unmarshal [[97], [98]] [0, 0, 0, 9, 1]).n = [[97], [98]] :=
  C20_atomic_on_failure [[97], [98]] [0, 0, 0, 9, 1] (by decide)

end Ssh
